import Mathlib

set_option maxRecDepth 8192

/-!
# Verification of the Multiavatar-Go core generation pipeline

A shallow embedding of the avatar-generation core of the repository
(`multiavatar.go` / the optioned variant of the same package): seed
extraction by SHA-256, per-part version/theme selection, configuration
options, color-placeholder substitution into template fragments, and
final document assembly.

Strings are modelled as `List Char`; byte strings as `List Nat`
(each entry `< 256`, the UTF-8 bytes of the Go input string).
Go runtime panics (out-of-range slicing) are modelled by `Option`:
`none` is a panic.
-/

namespace Multiavatar

/-! ## Machine arithmetic helpers (32-bit words as `Nat` mod `2^32`) -/

/-- Truncate to a 32-bit word. -/
def w32 (x : Nat) : Nat := x % 4294967296

/-- Rotate a 32-bit word right by `n` (for `x < 2^32`). -/
def rotr (n x : Nat) : Nat := (x >>> n) + w32 (x <<< (32 - n))

/-- Bitwise complement on 32-bit words. -/
def not32 (x : Nat) : Nat := x ^^^ 4294967295

/-! ## SHA-256 (as used via `crypto/sha256` in `Generate`)

A direct functional implementation of FIPS 180-4 over byte lists.
It is validated below on concrete inputs against the standard test
vectors (e.g. `sha256 "" = e3b0c442...`).
-/

/-- SHA-256 round constants. -/
def sha256K : List Nat :=
  [1116352408, 1899447441, 3049323471, 3921009573, 961987163, 1508970993,
   2453635748, 2870763221, 3624381080, 310598401, 607225278, 1426881987,
   1925078388, 2162078206, 2614888103, 3248222580, 3835390401, 4022224774,
   264347078, 604807628, 770255983, 1249150122, 1555081692, 1996064986,
   2554220882, 2821834349, 2952996808, 3210313671, 3336571891, 3584528711,
   113926993, 338241895, 666307205, 773529912, 1294757372, 1396182291,
   1695183700, 1986661051, 2177026350, 2456956037, 2730485921, 2820302411,
   3259730800, 3345764771, 3516065817, 3600352804, 4094571909, 275423344,
   430227734, 506948616, 659060556, 883997877, 958139571, 1322822218,
   1537002063, 1747873779, 1955562222, 2024104815, 2227730452, 2361852424,
   2428436474, 2756734187, 3204031479, 3329325298]

/-- SHA-256 initial hash state. -/
def sha256H0 : List Nat :=
  [1779033703, 3144134277, 1013904242, 2773480762, 1359893119, 2600822924,
   528734635, 1541459225]

/-- The `Ch` function of SHA-256. -/
def chF (x y z : Nat) : Nat := (x &&& y) ^^^ (not32 x &&& z)

/-- The `Maj` function of SHA-256. -/
def majF (x y z : Nat) : Nat := (x &&& y) ^^^ (x &&& z) ^^^ (y &&& z)

/-- Big sigma-0. -/
def bsig0 (x : Nat) : Nat := rotr 2 x ^^^ rotr 13 x ^^^ rotr 22 x

/-- Big sigma-1. -/
def bsig1 (x : Nat) : Nat := rotr 6 x ^^^ rotr 11 x ^^^ rotr 25 x

/-- Small sigma-0. -/
def ssig0 (x : Nat) : Nat := rotr 7 x ^^^ rotr 18 x ^^^ (x >>> 3)

/-- Small sigma-1. -/
def ssig1 (x : Nat) : Nat := rotr 17 x ^^^ rotr 19 x ^^^ (x >>> 10)

/-- Big-endian 8-byte rendering of the bit length. -/
def lenBE8 (n : Nat) : List Nat :=
  [(n >>> 56) % 256, (n >>> 48) % 256, (n >>> 40) % 256, (n >>> 32) % 256,
   (n >>> 24) % 256, (n >>> 16) % 256, (n >>> 8) % 256, n % 256]

/-- Big-endian 4-byte rendering of a 32-bit word. -/
def wordBytes (w : Nat) : List Nat :=
  [(w >>> 24) % 256, (w >>> 16) % 256, (w >>> 8) % 256, w % 256]

/-- SHA-256 message padding. -/
def padMsg (msg : List Nat) : List Nat :=
  msg ++ 128 :: List.replicate ((119 - msg.length % 64) % 64) 0
      ++ lenBE8 (8 * msg.length)

/-- Split a byte list into 64-byte blocks (fuel-indexed so that the
kernel can evaluate it; `fuel ≥ l.length` suffices). -/
def chunks64F : Nat → List Nat → List (List Nat)
  | 0, _ => []
  | _, [] => []
  | fuel + 1, x :: xs => (x :: xs).take 64 :: chunks64F fuel ((x :: xs).drop 64)

/-- Split a byte list into 64-byte blocks. -/
def chunks64 (l : List Nat) : List (List Nat) := chunks64F l.length l

/-- Parse one 64-byte block into sixteen big-endian 32-bit words. -/
def toWords : List Nat → List Nat
  | b0 :: b1 :: b2 :: b3 :: rest =>
      (((b0 * 256 + b1) * 256 + b2) * 256 + b3) :: toWords rest
  | _ => []

/-- Extend the message schedule by `n` further words. -/
def schedExt : Nat → List Nat → List Nat
  | 0, w => w
  | n + 1, w =>
      let l := w.length
      let wt := w32 (ssig1 (w.getD (l - 2) 0) + w.getD (l - 7) 0 +
                     ssig0 (w.getD (l - 15) 0) + w.getD (l - 16) 0)
      schedExt n (w ++ [wt])

/-- One SHA-256 compression round on an 8-word state. -/
def sha256Round (st : List Nat) (kw : Nat × Nat) : List Nat :=
  match st with
  | [a, b, c, d, e, f, g, h] =>
      let t1 := w32 (h + bsig1 e + chF e f g + kw.1 + kw.2)
      let t2 := w32 (bsig0 a + majF a b c)
      [w32 (t1 + t2), a, b, c, w32 (d + t1), e, f, g]
  | _ => st

/-- Compress one 64-byte block into the running state. -/
def compressBlock (h : List Nat) (block : List Nat) : List Nat :=
  let w := schedExt 48 (toWords block)
  let st := List.foldl sha256Round h (sha256K.zip w)
  List.zipWith (fun x y => w32 (x + y)) h st

/-- SHA-256 of a byte list, as 32 digest bytes. -/
def sha256Bytes (msg : List Nat) : List Nat :=
  ((chunks64 (padMsg msg)).foldl compressBlock sha256H0).flatMap wordBytes

/-! ## Hexadecimal rendering and seed digits (`Generate` steps 1-3) -/

/-- Lowercase hexadecimal digit. -/
def hexDigitChar (n : Nat) : Char :=
  Char.ofNat (if n < 10 then 48 + n else 87 + n)

/-- Go `hex.EncodeToString`: lowercase hexadecimal of a byte list. -/
def bytesToHexChars (bs : List Nat) : List Char :=
  bs.flatMap (fun b => [hexDigitChar (b / 16), hexDigitChar (b % 16)])

/-- The decimal digits remaining in the hex hash of the input
(`re.ReplaceAllString(hexHash, "")` with pattern `[^0-9]`). -/
def hashDigits (input : List Nat) : List Char :=
  (bytesToHexChars (sha256Bytes input)).filter Char.isDigit

/-- Go step 3: keep at most the first 12 digits
(`if len(hashStr) > 12 { hashStr = hashStr[:12] }`). -/
def hashStr12 (input : List Nat) : List Char :=
  let n := hashDigits input
  if n.length > 12 then n.take 12 else n

/-! ## Placeholder scanning and replacement (`getFinalPartWithOverride`)

Go discovers placeholder tokens with a compiled regular expression,
pattern hash-lazy-dot-star-semicolon, via FindAllString(svgString, -1):
successive leftmost non-overlapping
matches; a match starts at a `#` and extends lazily to the first `;`,
with `.` not matching a newline.  Concretely, a `#` starts a match iff
the nearest following `;`-or-newline exists and is a `;`; the match text
runs through that `;`.  `grabTok`/`nextTok`/`scanT` implement exactly
this scan, also keeping the gaps between matches so the original string
can be reconstructed. -/

/-- A character a lazy `.` run may absorb: anything but `;` (the
terminator) and `'\n'` (unmatched by `.`). -/
def cleanChar (c : Char) : Bool := c ≠ ';' && c ≠ '\n'

/-- From the text after a `#`, grab the token content: succeeds iff the
first `;`-or-newline exists and is a `;`, returning (content, rest). -/
def grabTok : List Char → Option (List Char × List Char)
  | [] => none
  | c :: cs =>
      if c = ';' then some ([], cs)
      else if c = '\n' then none
      else
        match grabTok cs with
        | some (h, r) => some (c :: h, r)
        | none => none

/-- Leftmost token match: returns (gap before it, match text, rest). -/
def nextTok : List Char → Option (List Char × List Char × List Char)
  | [] => none
  | c :: cs =>
      if c = '#' then
        match grabTok cs with
        | some (h, r) => some ([], '#' :: (h ++ [';']), r)
        | none =>
            match nextTok cs with
            | some (g, t, r) => some (c :: g, t, r)
            | none => none
      else
        match nextTok cs with
        | some (g, t, r) => some (c :: g, t, r)
        | none => none

/-- All matches with their gaps (fuel-indexed; `fuel ≥ l.length`
suffices since every match consumes at least two characters). -/
def scanTF : Nat → List Char → List (List Char × List Char) × List Char
  | 0, l => ([], l)
  | fuel + 1, l =>
      match nextTok l with
      | none => ([], l)
      | some (g, t, r) =>
          let p := scanTF fuel r
          ((g, t) :: p.1, p.2)

/-- Go `FindAllString` with gaps: the list of (gap, match) pairs in order,
plus the trailing gap. -/
def scanT (l : List Char) : List (List Char × List Char) × List Char :=
  scanTF l.length l

/-- The match texts alone, in scan order (`re.FindAllString s -1`). -/
def tokensOf (s : List Char) : List (List Char) := (scanT s).1.map Prod.snd

/-- Does `pat` lead (prefix) `s`? -/
def leads : List Char → List Char → Bool
  | [], _ => true
  | _ :: _, [] => false
  | p :: ps, s :: ss => p = s && leads ps ss

/-- Go `strings.Replace(s, old, new, 1)`: replace the first occurrence. -/
def replaceFirst : List Char → List Char → List Char → List Char
  | [], old, new => if old.isEmpty then new else []
  | c :: cs, old, new =>
      if leads old (c :: cs) then new ++ (c :: cs).drop old.length
      else c :: replaceFirst cs old new

/-- Does `t` occur as a contiguous substring of `s`? -/
def hasSub (t : List Char) : List Char → Bool
  | [] => leads t []
  | c :: ss => leads t (c :: ss) || hasSub t ss

/-- Rebuild the original string from (gap, match) pairs and trailing gap. -/
def joinSegs : List (List Char × List Char) → List Char → List Char
  | [], tail => tail
  | (g, t) :: segs, tail => g ++ t ++ joinSegs segs tail

/-- Positional substitution: the `i`-th match replaced by the `i`-th
color (re-appending `;`), leftover matches kept verbatim. This is the
substitution the spec describes; the code is compared against it. -/
def substSegs : List (List Char × List Char) → List (List Char) → List Char → List Char
  | [], _, tail => tail
  | (g, t) :: segs, [], tail => g ++ t ++ substSegs segs [] tail
  | (g, _) :: segs, c :: cs, tail => g ++ (c ++ [';']) ++ substSegs segs cs tail

/-- The replacement loop of `getFinalPartWithOverride`: for the `i`-th
match (while `i < len(colors)`) replace the first occurrence of its text
in the current result with `colors[i] + ";"`. -/
def substituteColors (svgString : List Char) (colors : List (List Char)) : List Char :=
  List.foldl (fun r mc => replaceFirst r mc.1 (mc.2 ++ [';']))
    svgString ((tokensOf svgString).zip colors)

/-- The lexical shape of a scanned token: `#`, a run of characters that
are neither `;` nor newline, then `;`. -/
def tokShape (tok : List Char) : Prop :=
  ∃ h, tok = '#' :: (h ++ [';']) ∧ h.all cleanChar = true

/-- Whether `tok` is one of the match texts of `segs`. -/
def tokIn (tok : List Char) (segs : List (List Char × List Char)) : Prop :=
  tok ∈ segs.map Prod.snd

/-- No occurrence of `tok` starts strictly inside `A`, whatever follows. -/
def noStartIn (tok A : List Char) : Prop :=
  ∀ suffix x b, A ++ suffix = x ++ tok ++ b → A.length ≤ x.length

/-- The sufficient side condition for positional substitution: no
substituted replacement text `colors[j] ++ ";"` contains the text of a
strictly later match as a substring. -/
def provisoOK : List (List Char × List Char) → List (List Char) → Bool
  | [], _ => true
  | _ :: _, [] => true
  | _ :: segs, c :: cs =>
      segs.all (fun gm => !hasSub gm.2 (c ++ [';'])) && provisoOK segs cs

/-- The invariant `scanT` guarantees: every match has the token shape,
and a `#` inside a gap never has a clean path to a `;` in the remainder
of the string (otherwise the scan would have matched there). -/
def segsWF : List (List Char × List Char) → List Char → Prop
  | [], tail => ∀ x y, tail = x ++ '#' :: y → grabTok y = none
  | (g, t) :: segs, tail =>
      (∃ h, t = '#' :: (h ++ [';']) ∧ h.all cleanChar = true) ∧
      (∀ x y, g = x ++ '#' :: y → grabTok (y ++ t ++ joinSegs segs tail) = none) ∧
      segsWF segs tail

/-! ## Configuration and options -/

def envN : List Char := "env".toList
def cloN : List Char := "clo".toList
def headN : List Char := "head".toList
def mouthN : List Char := "mouth".toList
def eyesN : List Char := "eyes".toList
def topN : List Char := "top".toList

/-- The fixed part declaration order (seed chunk order). -/
def partNamesL : List (List Char) := [envN, cloN, headN, mouthN, eyesN, topN]

/-- Go's `partIndex` map (`env:0, clo:1, head:2, mouth:3, eyes:4, top:5`);
a missing key yields the zero value 0. This also equals the loop index of
the part in `partNamesL`. -/
def partIdxOf (name : List Char) : Nat :=
  if name = envN then 0 else if name = cloN then 1 else if name = headN then 2
  else if name = mouthN then 3 else if name = eyesN then 4
  else if name = topN then 5 else 0

/-- The `config` struct. Go's maps are modelled as functions returning
`Option` (`none` = key absent, matching Go's comma-ok); a nil map equals
the everywhere-`none` function. -/
structure AvatarConfig where
  withoutBackground : Bool
  selectedTheme : Option (List Char)
  forcePartV : List Char → Option (List Char)
  allowedVersions : List Char → Option (List (List Char))
  partTheme : List Char → Option (List Char)
  allowedThemes : List Char → Option (List (List Char))
  disabledParts : List Char → Bool
  overrideColors : List Char → Option (List (List Char))

/-- The zero `config{}` (after `Generate`'s nil-map initialization,
which is a no-op in this model). -/
def initConfig : AvatarConfig :=
  ⟨false, none, fun _ => none, fun _ => none, fun _ => none,
   fun _ => none, fun _ => false, fun _ => none⟩

/-- Map update `m[k] = v`. -/
def updMap {α : Type} (m : List Char → Option α) (k : List Char) (v : α) :
    List Char → Option α :=
  fun k2 => if k2 = k then some v else m k2

/-- Go `strings.TrimSpace`. -/
def trimS (s : List Char) : List Char :=
  ((s.dropWhile Char.isWhitespace).reverse.dropWhile Char.isWhitespace).reverse

/-- Go `strings.ToUpper` (the option values validated here are ASCII). -/
def upperS (s : List Char) : List Char := s.map Char.toUpper

/-- Go `strings.ToLower`. -/
def lowerS (s : List Char) : List Char := s.map Char.toLower

/-- The `switch pn { case "env", "clo", "head", "mouth", "eyes", "top" }`
guard shared by the per-part options. -/
def knownPart (pn : List Char) : Bool :=
  pn == envN || pn == cloN || pn == headN || pn == mouthN || pn == eyesN || pn == topN

/-- Whether `t` is the string A, B or C. -/
def themeABC (t : List Char) : Bool :=
  t == "A".toList || t == "B".toList || t == "C".toList

/-- The recognized female keywords of `WithGender`. -/
def femaleWords : List (List Char) :=
  ["female".toList, "woman".toList, "girl".toList, "f".toList, "♀".toList]

/-- The recognized male keywords of `WithGender`. -/
def maleWords : List (List Char) :=
  ["male".toList, "man".toList, "boy".toList, "m".toList, "♂".toList]

/-- The public option constructors (each `Option` closure of the Go API). -/
inductive GenOption where
  | withTheme (theme : List Char)
  | withPartVersion (partName partVersion : List Char)
  | withPartColors (partName : List Char) (colors : List (List Char))
  | withPartTheme (partName theme : List Char)
  | withAllowedThemes (partName : List Char) (themesList : List (List Char))
  | withoutPart (partName : List Char)
  | withAllowedVersions (partName : List Char) (versions : List (List Char))
  | withGender (gender : List Char)
  | withoutBackground

/-- Apply one option closure to the configuration, mirroring the Go
constructors' validation and updates. -/
def applyOption (c : AvatarConfig) : GenOption → AvatarConfig
  | .withTheme theme =>
      let t := upperS (trimS theme)
      if themeABC t then { c with selectedTheme := some t } else c
  | .withPartVersion partName partVersion =>
      let pn := trimS partName
      let pv := trimS partVersion
      if knownPart pn then
        if pv.length = 2 then { c with forcePartV := updMap c.forcePartV pn pv }
        else c
      else c
  | .withPartColors partName colors =>
      let pn := trimS partName
      if knownPart pn then
        { c with overrideColors := updMap c.overrideColors pn (colors.map trimS) }
      else c
  | .withPartTheme partName theme =>
      let pn := trimS partName
      let t := upperS (trimS theme)
      if knownPart pn then
        if themeABC t then { c with partTheme := updMap c.partTheme pn t } else c
      else c
  | .withAllowedThemes partName themesList =>
      let pn := trimS partName
      if knownPart pn then
        let tl := (themesList.map (fun t => upperS (trimS t))).filter themeABC
        if tl.length > 0 then { c with allowedThemes := updMap c.allowedThemes pn tl }
        else c
      else c
  | .withoutPart partName =>
      let pn := trimS partName
      if knownPart pn then
        { c with disabledParts := fun k => if k = pn then true else c.disabledParts k }
      else c
  | .withAllowedVersions partName versions =>
      let pn := trimS partName
      if knownPart pn then
        let vlist := (versions.map trimS).filter (fun v => v.length == 2)
        if vlist.length > 0 then
          { c with allowedVersions := updMap c.allowedVersions pn vlist }
        else c
      else c
  | .withGender gender =>
      let g := lowerS (trimS gender)
      if g ∈ femaleWords then
        { c with
          allowedVersions := updMap (updMap c.allowedVersions topN
            ["01".toList, "03".toList, "07".toList, "10".toList]) eyesN
            ["03".toList, "11".toList],
          allowedThemes := updMap c.allowedThemes topN ["A".toList, "C".toList],
          partTheme := updMap (updMap c.partTheme topN "C".toList) eyesN "C".toList }
      else if g ∈ maleWords then
        { c with
          allowedVersions := updMap (updMap c.allowedVersions topN
            ["04".toList, "05".toList, "14".toList]) eyesN
            ["09".toList, "10".toList],
          allowedThemes := updMap c.allowedThemes topN ["A".toList, "B".toList],
          partTheme := updMap (updMap c.partTheme topN "B".toList) eyesN "B".toList }
      else
        { c with
          allowedVersions := updMap (updMap c.allowedVersions topN
            ["01".toList, "03".toList, "04".toList, "05".toList, "07".toList,
             "10".toList, "14".toList]) eyesN
            ["03".toList, "09".toList, "10".toList, "11".toList],
          allowedThemes := updMap c.allowedThemes topN
            ["A".toList, "B".toList, "C".toList] }
  | .withoutBackground => { c with withoutBackground := true }

/-- The option loop of `Generate`: each option closure applied in order. -/
def buildConfig (opts : List GenOption) : AvatarConfig :=
  opts.foldl applyOption initConfig

/-! ## The catalog and the generation pipeline -/

/-- Modelled from the spec: the template/color catalog — the package's
`themes` and `parts` globals — is a read-only data asset whose source
file is not among the provided sources (spec §1 treats its content as a
pre-supplied asset, §3 gives its shape).  `themes` is the nested map
(version `"00"`..`"15"`, theme `"A"|"B"|"C"`, part name) → color list,
with `none` for a missing entry (Go's comma-ok on the nested lookup);
`parts` is (numeric version, part index) → template fragment, total
over the catalog's range since spec §4.3 requires exhaustiveness. -/
structure Catalog where
  themes : List Char → List Char → List Char → Option (List (List Char))
  parts : Nat → Nat → List Char

/-- Numeric value of a digit character. -/
def digitVal (c : Char) : Nat := c.toNat - 48

/-- Go `strconv.Atoi` with the error discarded (`val, _ := strconv.Atoi(s)`):
a non-numeric string yields 0.  (Go's Atoi also accepts a sign; the call
sites only pass digit strings or 2-character catalog keys, where a signed
numeral like "-5" has no catalog entry and its parse is never used.) -/
def atoiChars (s : List Char) : Nat :=
  if s ≠ [] ∧ s.all Char.isDigit then s.foldl (fun a c => a * 10 + digitVal c) 0
  else 0

/-- The raw seed value for chunk `i`: `strconv.Atoi(hashStr[i*2 : i*2+2])`. -/
def rawPartVal (h : List Char) (i : Nat) : Nat :=
  atoiChars ((h.drop (i * 2)).take 2)

/-- Go computes `nr := int(math.Round(float64(val) * 47 / 100))` in
float64.  For every value reaching this point (`val ≤ 99`) the float
product is exact and the quotient is correctly rounded, never within
`2^-45` of a half-integer except at `val = 50` where it is exactly 23.5
(representable); `math.Round` ties away from zero, so the result equals
`(val * 47 + 50) / 100` in integers for all `val ≤ 99` (checked
exhaustively against the float64 semantics). -/
def scaleNr (val : Nat) : Nat := (val * 47 + 50) / 100

def digitChar (n : Nat) : Char := Char.ofNat (48 + n)

/-- Decimal digits of a natural number (fuel-indexed). -/
def natCharsF : Nat → Nat → List Char
  | 0, _ => []
  | fuel + 1, n =>
      if n < 10 then [digitChar n] else natCharsF fuel (n / 10) ++ [digitChar (n % 10)]

def natChars (n : Nat) : List Char := natCharsF (n + 1) n

/-- Go `fmt.Sprintf("%02d", n)` for a non-negative int. -/
def fmt02 (n : Nat) : List Char :=
  if n < 10 then ['0', digitChar n] else natChars n

def themeA : List Char := "A".toList
def themeB : List Char := "B".toList
def themeC : List Char := "C".toList

/-- Step 4c: the seed-derived default (version, theme) for a raw value. -/
def defaultVT (val : Nat) : List Char × List Char :=
  let nr := scaleNr val
  if nr > 31 then (fmt02 (nr - 32), themeC)
  else if nr > 15 then (fmt02 (nr - 16), themeB)
  else (fmt02 nr, themeA)

/-- The theme-override block of `Generate`:
global `selectedTheme` is applied first, then a per-part forced theme
overwrites it, else a non-empty per-part allowed-theme list selects by
`val % len`. -/
def resolveTheme (cfg : AvatarConfig) (name : List Char) (val : Nat)
    (dflt : List Char) : List Char :=
  let t0 := match cfg.selectedTheme with
    | some t => t
    | none => dflt
  match cfg.partTheme name with
  | some pt => pt
  | none =>
      match cfg.allowedThemes name with
      | some l => if l.length > 0 then l.getD (val % l.length) t0 else t0
      | none => t0

/-- The version-override block of `Generate`: a forced 2-character
version wins, else a non-empty allowed-version list selects by
`val % len`, else the seed default. -/
def resolveVersion (cfg : AvatarConfig) (name : List Char) (val : Nat)
    (dflt : List Char) : List Char :=
  let fb := match cfg.allowedVersions name with
    | some l => if l.length > 0 then l.getD (val % l.length) dflt else dflt
    | none => dflt
  match cfg.forcePartV name with
  | some f => if f.length = 2 then f else fb
  | none => fb

/-- The body of `getFinalPartWithOverride`: catalog color lookup (missing entry →
empty fragment), wholesale color override when non-empty, then the
placeholder replacement loop over the template. -/
def getFinalPartWithOverride (cat : Catalog) (partName partV theme : List Char)
    (override : Option (List (List Char))) : List Char :=
  match cat.themes partV theme partName with
  | none => []
  | some colors0 =>
      let colors := match override with
        | some ov => if ov.length > 0 then ov else colors0
        | none => colors0
      substituteColors (cat.parts (atoiChars partV) (partIdxOf partName)) colors

/-- The body of `Generate`'s part loop for one part: raw seed value,
default (version, theme), override resolution, fragment rendering. -/
def partFragment (cat : Catalog) (cfg : AvatarConfig) (h : List Char)
    (name : List Char) : List Char :=
  let val := rawPartVal h (partIdxOf name)
  let d := defaultVT val
  getFinalPartWithOverride cat name (resolveVersion cfg name val d.1)
    (resolveTheme cfg name val d.2) (cfg.overrideColors name)

def svgOpen : List Char :=
  "<svg xmlns=\"http://www.w3.org/2000/svg\" viewBox=\"0 0 231 231\">".toList

def svgClose : List Char := "</svg>".toList

/-- Whether a part's fragment is written in step 5: `env` requires
`!withoutBackground && !disabledParts["env"]`, the others only
`!disabledParts[name]`. -/
def enabledPart (cfg : AvatarConfig) (name : List Char) : Bool :=
  if name = envN then !cfg.withoutBackground && !cfg.disabledParts envN
  else !cfg.disabledParts name

/-- The fixed render order of step 5. -/
def renderOrder : List (List Char) := [envN, headN, cloN, topN, eyesN, mouthN]

/-- Step 5: opening tag, the enabled parts' fragments in fixed order,
closing tag. -/
def assembleSVG (cat : Catalog) (cfg : AvatarConfig) (h : List Char) : List Char :=
  svgOpen ++ ((renderOrder.filter (enabledPart cfg)).map (partFragment cat cfg h)).flatten
    ++ svgClose

/-- The public `Generate(input, opts...)`.  `input` is the Go string's UTF-8 bytes;
the result is `some` output string, or `none` for a runtime panic.
The only panic source is step 4a's slice `hashStr[i*2 : i*2+2]`: Go only
truncates when *more* than 12 digits survive the non-digit strip, so if
fewer than 12 remain the `i = 5` access (and earlier ones) is out of
range; all six accesses are in bounds iff `12 ≤ len(hashStr)`. -/
def Generate (cat : Catalog) (input : List Nat) (opts : List GenOption) :
    Option (List Char) :=
  let cfg := buildConfig opts
  if input = [] then some []
  else
    let h := hashStr12 input
    if 12 ≤ h.length then some (assembleSVG cat cfg h) else none

/-- The regression-fixture input `"Binx Bond123"` as UTF-8 bytes. -/
def sampleInput : List Nat := "Binx Bond123".toList.map Char.toNat

/-! ## Spec-side definitions

These follow the specification's wording (not the code) and are compared
with the code-derived definitions above. -/

/-- Round-half-away-from-zero of the non-negative rational `num / den`:
`⌊num/den + 1/2⌋`, with exact halves rounded up (away from zero). -/
def roundHalfAwayFromZero (num den : Nat) : Nat := (2 * num + den) / (2 * den)

/-- The spec's seed value for part `i`: parse the `i`-th 2-digit chunk of
the first 12 decimal digits that remain after deleting every non-digit
character from the lowercase hex SHA-256 of the input bytes. -/
def specSeedVal (input : List Nat) (i : Nat) : Nat :=
  let d12 := ((bytesToHexChars (sha256Bytes input)).filter Char.isDigit).take 12
  10 * digitVal (d12.getD (2 * i) '0') + digitVal (d12.getD (2 * i + 1) '0')

/-- A small concrete catalog used to instantiate the
catalog-quantified theorems: the color list is the theme letter
followed by the version key, the template shows the numeric version and
part index and carries two placeholder tokens. -/
def sampleCat : Catalog :=
  { themes := fun v t _p => some [t ++ v],
    parts := fun v i =>
      "<x>".toList ++ natChars v ++ ".".toList ++ natChars i ++ "#a;#b;</x>".toList }

/-- A theme letter is one of `A`, `B`, `C`. -/
def wfTheme (t : List Char) : Prop := t = themeA ∨ t = themeB ∨ t = themeC

/-- The exact 2-digit version codes `00`..`15` of the catalog range. -/
def versionCodes00to15 : List (List Char) := (List.range 16).map fmt02

instance (t : List Char) : Decidable (wfTheme t) := by
  unfold wfTheme; infer_instance

/-- What option construction actually guarantees about a configuration:
every stored theme is `A`/`B`/`C`; every stored allowed list is
non-empty; every stored version code has exactly 2 characters (but is
not constrained to `00`..`15`). -/
def ConfigWF (c : AvatarConfig) : Prop :=
  (∀ t, c.selectedTheme = some t → wfTheme t) ∧
  (∀ n t, c.partTheme n = some t → wfTheme t) ∧
  (∀ n l, c.allowedThemes n = some l → l ≠ [] ∧ ∀ t ∈ l, wfTheme t) ∧
  (∀ n f, c.forcePartV n = some f → f.length = 2) ∧
  (∀ n l, c.allowedVersions n = some l → l ≠ [] ∧ ∀ v ∈ l, v.length = 2)

/-! ## C2: seed-derived default selection -/

/-- C2. For every raw part value `v` in 0..99 the seed-derived
default computes `nr = round(v*47/100)` with round-half-away-from-zero,
`nr` lies in 0..47, the band split maps `nr > 31` to version `nr - 32`
with theme C, `nr > 15` to `nr - 16` with theme B, else `nr` with theme
A, and the version is zero-padded to exactly 2 digits. -/
theorem c2_default_selection (v : Nat) (hv : v ≤ 99) :
    scaleNr v = roundHalfAwayFromZero (v * 47) 100 ∧
    scaleNr v ≤ 47 ∧
    (31 < scaleNr v → defaultVT v = (fmt02 (scaleNr v - 32), themeC)) ∧
    (15 < scaleNr v → scaleNr v ≤ 31 → defaultVT v = (fmt02 (scaleNr v - 16), themeB)) ∧
    (scaleNr v ≤ 15 → defaultVT v = (fmt02 (scaleNr v), themeA)) ∧
    (defaultVT v).1.length = 2 := by
  have h : ∀ w ∈ List.range 100,
      scaleNr w = roundHalfAwayFromZero (w * 47) 100 ∧
      scaleNr w ≤ 47 ∧
      (31 < scaleNr w → defaultVT w = (fmt02 (scaleNr w - 32), themeC)) ∧
      (15 < scaleNr w → scaleNr w ≤ 31 → defaultVT w = (fmt02 (scaleNr w - 16), themeB)) ∧
      (scaleNr w ≤ 15 → defaultVT w = (fmt02 (scaleNr w), themeA)) ∧
      (defaultVT w).1.length = 2 := by decide
  exact h v (List.mem_range.mpr (by omega))

/-- Witness for C2 at the round-half tie `v = 50` (exactly 23.5,
rounded away from zero to 24, hence version `08` in band B). -/
theorem c2_default_selection_witness :
    scaleNr 50 = roundHalfAwayFromZero (50 * 47) 100 ∧ scaleNr 50 = 24 ∧
    defaultVT 50 = (fmt02 8, themeB) := by
  have h := c2_default_selection 50 (by decide)
  exact ⟨h.1, by decide, by
    have := h.2.2.2.1 (by decide) (by decide)
    simpa using this⟩

/-! ## C3: override precedence -/

/-- C3. Theme precedence: per-part forced theme, else per-part
allowed-theme list at index `val % len`, else global forced theme, else
the seed default; version precedence: per-part forced version, else
per-part allowed-version list at index `val % len`, else the seed
default. -/
theorem c3_override_precedence (cfg : AvatarConfig) (name : List Char)
    (val : Nat) (dv dt : List Char) :
    (∀ t, cfg.partTheme name = some t → resolveTheme cfg name val dt = t) ∧
    (∀ l, cfg.partTheme name = none → cfg.allowedThemes name = some l → l ≠ [] →
      resolveTheme cfg name val dt = l.getD (val % l.length) dt) ∧
    (∀ g, cfg.partTheme name = none → cfg.allowedThemes name = none →
      cfg.selectedTheme = some g → resolveTheme cfg name val dt = g) ∧
    (cfg.partTheme name = none → cfg.allowedThemes name = none →
      cfg.selectedTheme = none → resolveTheme cfg name val dt = dt) ∧
    (∀ f, cfg.forcePartV name = some f → f.length = 2 →
      resolveVersion cfg name val dv = f) ∧
    (∀ l, cfg.forcePartV name = none → cfg.allowedVersions name = some l → l ≠ [] →
      resolveVersion cfg name val dv = l.getD (val % l.length) dv) ∧
    (cfg.forcePartV name = none → cfg.allowedVersions name = none →
      resolveVersion cfg name val dv = dv) := by
  refine ⟨?_, ?_, ?_, ?_, ?_, ?_, ?_⟩
  · intro t ht; simp [resolveTheme, ht]
  · intro l hpt hal hne
    have hlen : 0 < l.length := List.length_pos.mpr hne
    have hidx : val % l.length < l.length := Nat.mod_lt _ hlen
    simp only [resolveTheme, hpt, hal]
    rw [if_pos hlen]
    rcases h0 : cfg.selectedTheme with _ | t <;>
      simp [List.getD_eq_getElem?_getD, List.getElem?_eq_getElem hidx]
  · intro g hpt hal hg; simp [resolveTheme, hpt, hal, hg]
  · intro hpt hal hg; simp [resolveTheme, hpt, hal, hg]
  · intro f hf hlen; simp [resolveVersion, hf, hlen]
  · intro l hf hal hne
    have hlen : 0 < l.length := List.length_pos.mpr hne
    simp [resolveVersion, hf, hal, hlen]
  · intro hf hal; simp [resolveVersion, hf, hal]

/-- Witness for C3: a per-part forced theme and a forced version win at a
concrete configuration. -/
theorem c3_override_precedence_witness :
    resolveTheme (buildConfig [.withPartTheme topN themeB]) topN 7 themeA = themeB ∧
    resolveVersion (buildConfig [.withPartVersion topN "07".toList]) topN 3 "00".toList
      = "07".toList := by
  constructor
  · exact (c3_override_precedence (buildConfig [.withPartTheme topN themeB])
      topN 7 themeA themeA).1 themeB (by decide)
  · exact (c3_override_precedence (buildConfig [.withPartVersion topN "07".toList])
      topN 3 "07".toList themeA).2.2.2.2.1 "07".toList (by decide) (by decide)

/-! ## C1: seed extraction -/

theorem drop_take_two (l : List Char) (k : Nat) (h : k + 2 ≤ l.length) :
    (l.drop k).take 2 = [l.getD k '0', l.getD (k + 1) '0'] := by
  have hk : k < l.length := by omega
  have hk1 : k + 1 < l.length := by omega
  rw [List.getD_eq_getElem l '0' hk, List.getD_eq_getElem l '0' hk1,
      List.drop_eq_getElem_cons hk, List.drop_eq_getElem_cons hk1]
  rfl

theorem atoi_two (a b : Char) (ha : a.isDigit = true) (hb : b.isDigit = true) :
    atoiChars [a, b] = 10 * digitVal a + digitVal b := by
  unfold atoiChars
  rw [if_pos ⟨by simp, by simp [ha, hb]⟩]
  simp [List.foldl]
  ring

theorem digit_le_nine (c : Char) (h : c.isDigit = true) : digitVal c ≤ 9 := by
  simp only [Char.isDigit, Bool.and_eq_true, decide_eq_true_eq] at h
  have h2 : c.toNat ≤ 57 := h.2
  unfold digitVal
  omega

/-- C1. For every non-empty input, the raw per-part value consumed
for the `i`-th part in the declaration order `env, clo, head, mouth,
eyes, top` is the integer 0–99 parsed from the `i`-th 2-digit chunk of
the first 12 decimal digits remaining after deleting every non-digit
character from the lowercase hex SHA-256 of the input bytes.  (The
hypothesis that at least 12 digits remain is exactly the condition under
which the chunk slices are in bounds; see C8.) -/
theorem c1_seed_extraction (input : List Nat) (hne : input ≠ [])
    (hlen : 12 ≤ (hashDigits input).length) (i : Nat) (hi : i < 6) :
    rawPartVal (hashStr12 input) i = specSeedVal input i ∧
    specSeedVal input i ≤ 99 ∧
    partIdxOf (partNamesL.getD i []) = i := by
  have hidx : ∀ j ∈ List.range 6, partIdxOf (partNamesL.getD j []) = j := by decide
  have h12 : hashStr12 input = (hashDigits input).take 12 := by
    unfold hashStr12
    dsimp only
    split_ifs with hgt
    · rfl
    · exact (List.take_of_length_le (by omega)).symm
  have hlen12 : ((hashDigits input).take 12).length = 12 := by
    rw [List.length_take]
    omega
  have hchunk : (((hashDigits input).take 12).drop (i * 2)).take 2 =
      [((hashDigits input).take 12).getD (i * 2) '0',
       ((hashDigits input).take 12).getD (i * 2 + 1) '0'] :=
    drop_take_two _ _ (by omega)
  have hdigit : ∀ j, j < 12 → (((hashDigits input).take 12).getD j '0').isDigit = true := by
    intro j hj
    have hjlt : j < ((hashDigits input).take 12).length := by omega
    rw [List.getD_eq_getElem _ '0' hjlt]
    have hmem : ((hashDigits input).take 12)[j] ∈ (hashDigits input).take 12 :=
      List.getElem_mem hjlt
    have hmem2 : ((hashDigits input).take 12)[j] ∈ hashDigits input :=
      List.mem_of_mem_take hmem
    exact (List.mem_filter.mp hmem2).2
  have ha := hdigit (i * 2) (by omega)
  have hb := hdigit (i * 2 + 1) (by omega)
  have hval : rawPartVal (hashStr12 input) i =
      10 * digitVal (((hashDigits input).take 12).getD (i * 2) '0') +
        digitVal (((hashDigits input).take 12).getD (i * 2 + 1) '0') := by
    rw [h12]
    unfold rawPartVal
    rw [hchunk, atoi_two _ _ ha hb]
  have hspec : specSeedVal input i =
      10 * digitVal (((hashDigits input).take 12).getD (i * 2) '0') +
        digitVal (((hashDigits input).take 12).getD (i * 2 + 1) '0') := by
    unfold specSeedVal hashDigits
    have h2i : 2 * i = i * 2 := by ring
    simp [h2i]
  refine ⟨by rw [hval, hspec], ?_, hidx i (List.mem_range.mpr hi)⟩
  rw [hspec]
  have := digit_le_nine _ ha
  have := digit_le_nine _ hb
  omega

/-- Witness for C1 at the fixture input `"Binx Bond123"` and part 0. -/
theorem c1_seed_extraction_witness :
    rawPartVal (hashStr12 sampleInput) 0 = specSeedVal sampleInput 0 ∧
    specSeedVal sampleInput 0 ≤ 99 ∧
    partIdxOf (partNamesL.getD 0 []) = 0 :=
  c1_seed_extraction sampleInput (by decide) (by decide) 0 (by decide)

/-! ## C5, C6: document envelope and part disabling -/

theorem hashStr12_big (input : List Nat) :
    12 ≤ (hashStr12 input).length ↔ 12 ≤ (hashDigits input).length := by
  unfold hashStr12
  dsimp only
  split_ifs with h
  · simp only [List.length_take]
    omega
  · omega

theorem svg_wrap_ne_nil (mid : List Char) : svgOpen ++ mid ++ svgClose ≠ [] := by
  intro h
  have : (svgOpen ++ mid ++ svgClose).length = 0 := by rw [h]; rfl
  simp [svgOpen, svgClose] at this

/-- C5. Generate returns the empty string iff the input is empty;
for every non-empty input (whose hash keeps at least 12 digits, the
in-bounds condition of step 4a) the result is one document wrapped in
the fixed opening tag with the `0 0 231 231` viewbox and the fixed
closing tag, for every option list. -/
theorem c5_empty_iff_and_envelope (cat : Catalog) (input : List Nat)
    (opts : List GenOption) :
    (Generate cat input opts = some [] ↔ input = []) ∧
    (input ≠ [] → 12 ≤ (hashDigits input).length →
      ∃ mid, Generate cat input opts = some (svgOpen ++ mid ++ svgClose)) := by
  by_cases hin : input = []
  · subst hin
    constructor
    · simp [Generate]
    · intro h; exact absurd rfl h
  · constructor
    · unfold Generate
      dsimp only
      rw [if_neg hin]
      split_ifs with hg
      · constructor
        · intro h
          exfalso
          have h2 := Option.some_injective _ h
          unfold assembleSVG at h2
          exact svg_wrap_ne_nil _ h2
        · intro h; exact absurd h hin
      · constructor
        · intro h; cases h
        · intro h; exact absurd h hin
    · intro _ hlen
      refine ⟨((renderOrder.filter (enabledPart (buildConfig opts))).map
        (partFragment cat (buildConfig opts) (hashStr12 input))).flatten, ?_⟩
      unfold Generate
      dsimp only
      rw [if_neg hin, if_pos ((hashStr12_big input).mpr hlen)]
      rfl

/-- Witness for C5 at the fixture input and the sample catalog. -/
theorem c5_empty_iff_and_envelope_witness :
    ∃ mid, Generate sampleCat sampleInput [] = some (svgOpen ++ mid ++ svgClose) :=
  (c5_empty_iff_and_envelope sampleCat sampleInput []).2 (by decide) (by decide)

/-- C6. Disabling part `p` yields exactly the baseline document with
`p`'s fragment deleted: the same per-part fragments (computed with the
baseline configuration) are concatenated in the same fixed order, with
only `p` filtered out; likewise `WithoutBackground` deletes exactly the
`env` fragment. -/
theorem c6_part_disabling (cat : Catalog) (input : List Nat) (hne : input ≠ [])
    (hlen : 12 ≤ (hashDigits input).length) (p : List Char) (hp : p ∈ partNamesL) :
    Generate cat input [] = some (svgOpen ++
      (renderOrder.map (partFragment cat (buildConfig []) (hashStr12 input))).flatten
      ++ svgClose) ∧
    Generate cat input [.withoutPart p] = some (svgOpen ++
      ((renderOrder.filter (fun n => n ≠ p)).map
        (partFragment cat (buildConfig []) (hashStr12 input))).flatten ++ svgClose) ∧
    Generate cat input [.withoutBackground] = some (svgOpen ++
      ((renderOrder.filter (fun n => n ≠ envN)).map
        (partFragment cat (buildConfig []) (hashStr12 input))).flatten ++ svgClose) := by
  have hg : 12 ≤ (hashStr12 input).length := (hashStr12_big input).mpr hlen
  refine ⟨?_, ?_, ?_⟩
  · unfold Generate
    dsimp only
    rw [if_neg hne, if_pos hg]
    rfl
  · unfold Generate
    dsimp only
    rw [if_neg hne, if_pos hg]
    simp only [partNamesL, List.mem_cons, List.not_mem_nil, or_false] at hp
    rcases hp with h | h | h | h | h | h <;> subst h <;> rfl
  · unfold Generate
    dsimp only
    rw [if_neg hne, if_pos hg]
    rfl

/-- Witness for C6: suppressing `top` at the fixture input and sample
catalog. -/
theorem c6_part_disabling_witness :
    Generate sampleCat sampleInput [.withoutPart topN] = some (svgOpen ++
      ((renderOrder.filter (fun n => n ≠ topN)).map
        (partFragment sampleCat (buildConfig []) (hashStr12 sampleInput))).flatten
      ++ svgClose) :=
  (c6_part_disabling sampleCat sampleInput (by decide) (by decide) topN
    (by decide)).2.1

/-! ## C10: WithGender's default branch is not a no-op -/

/-- C10. For every gender value that matches neither the female nor
the male keyword set (after trimming and lowercasing), `WithGender`
still installs the unisex presets — `allowedVersions["top"] =
[01,03,04,05,07,10,14]`, `allowedVersions["eyes"] = [03,09,10,11]`,
`allowedThemes["top"] = [A,B,C]` — so `Generate` with an unrecognized
gender can differ from `Generate` with no options (shown at a concrete
input), while every other option constructor leaves the configuration
unchanged on unrecognized values. -/
theorem c10_gender_default_branch (c : AvatarConfig) (g : List Char)
    (hf : lowerS (trimS g) ∉ femaleWords) (hm : lowerS (trimS g) ∉ maleWords) :
    ((applyOption c (.withGender g)).allowedVersions topN =
      some ["01".toList, "03".toList, "04".toList, "05".toList, "07".toList,
        "10".toList, "14".toList]) ∧
    ((applyOption c (.withGender g)).allowedVersions eyesN =
      some ["03".toList, "09".toList, "10".toList, "11".toList]) ∧
    ((applyOption c (.withGender g)).allowedThemes topN =
      some [themeA, themeB, themeC]) ∧
    Generate sampleCat sampleInput [.withGender "x".toList] ≠
      Generate sampleCat sampleInput [] ∧
    (∀ t, themeABC (upperS (trimS t)) = false →
      applyOption c (.withTheme t) = c) ∧
    (∀ pn pv, knownPart (trimS pn) = false ∨ (trimS pv).length ≠ 2 →
      applyOption c (.withPartVersion pn pv) = c) ∧
    (∀ pn cs, knownPart (trimS pn) = false →
      applyOption c (.withPartColors pn cs) = c) ∧
    (∀ pn t, knownPart (trimS pn) = false ∨ themeABC (upperS (trimS t)) = false →
      applyOption c (.withPartTheme pn t) = c) ∧
    (∀ pn tl, knownPart (trimS pn) = false ∨
        ((tl.map (fun t => upperS (trimS t))).filter themeABC).length = 0 →
      applyOption c (.withAllowedThemes pn tl) = c) ∧
    (∀ pn, knownPart (trimS pn) = false → applyOption c (.withoutPart pn) = c) ∧
    (∀ pn vs, knownPart (trimS pn) = false ∨
        ((vs.map trimS).filter (fun v => v.length == 2)).length = 0 →
      applyOption c (.withAllowedVersions pn vs) = c) := by
  refine ⟨?_, ?_, ?_, by decide, ?_, ?_, ?_, ?_, ?_, ?_, ?_⟩
  · simp only [applyOption]
    rw [if_neg hf, if_neg hm]
    simp [updMap, show topN ≠ eyesN from by decide]
  · simp only [applyOption]
    rw [if_neg hf, if_neg hm]
    simp [updMap]
  · simp only [applyOption]
    rw [if_neg hf, if_neg hm]
    simp [updMap, themeA, themeB, themeC]
  · intro t ht
    simp [applyOption, ht]
  · intro pn pv h
    rcases h with h | h <;> simp [applyOption, h]
  · intro pn cs h
    simp [applyOption, h]
  · intro pn t h
    rcases h with h | h <;> simp [applyOption, h]
  · intro pn tl h
    rcases h with h | h <;> simp [applyOption, h]
  · intro pn h
    simp [applyOption, h]
  · intro pn vs h
    rcases h with h | h <;> simp [applyOption, h]

/-- Witness for C10 at a concrete unrecognized gender value. -/
theorem c10_gender_default_branch_witness :
    (applyOption initConfig (.withGender "zzz".toList)).allowedVersions topN =
      some ["01".toList, "03".toList, "04".toList, "05".toList, "07".toList,
        "10".toList, "14".toList] ∧
    applyOption initConfig (.withTheme "Q".toList) = initConfig := by
  have h := c10_gender_default_branch initConfig "zzz".toList (by decide) (by decide)
  exact ⟨h.1, h.2.2.2.2.1 "Q".toList (by decide)⟩

/-! ## C4: invariants established at configuration construction -/

theorem updMap_cases {α : Type} (m : List Char → Option α) (k : List Char)
    (v : α) (n : List Char) (x : α) (h : updMap m k v n = some x) :
    x = v ∨ m n = some x := by
  unfold updMap at h
  split at h
  · exact Or.inl (Option.some_injective _ h).symm
  · exact Or.inr h

theorem themeABC_wf (t : List Char) (h : themeABC t = true) : wfTheme t := by
  simp only [themeABC, Bool.or_eq_true, beq_iff_eq] at h
  rcases h with (h | h) | h <;> simp [wfTheme, h, themeA, themeB, themeC]

theorem configWF_init : ConfigWF initConfig := by
  refine ⟨?_, ?_, ?_, ?_, ?_⟩ <;> intros <;> simp_all [initConfig]

theorem configWF_apply (c : AvatarConfig) (o : GenOption) (hc : ConfigWF c) :
    ConfigWF (applyOption c o) := by
  obtain ⟨h1, h2, h3, h4, h5⟩ := hc
  cases o with
  | withTheme theme =>
      simp only [applyOption]
      split
      · refine ⟨?_, h2, h3, h4, h5⟩
        intro t ht
        simp only [Option.some_inj] at ht
        exact ht ▸ themeABC_wf _ (by assumption)
      · exact ⟨h1, h2, h3, h4, h5⟩
  | withPartVersion partName partVersion =>
      simp only [applyOption]
      split
      · split
        · refine ⟨h1, h2, h3, ?_, h5⟩
          intro n f hf
          rcases updMap_cases _ _ _ _ _ hf with h | h
          · subst h; assumption
          · exact h4 n f h
        · exact ⟨h1, h2, h3, h4, h5⟩
      · exact ⟨h1, h2, h3, h4, h5⟩
  | withPartColors partName colors =>
      simp only [applyOption]
      split
      · exact ⟨h1, h2, h3, h4, h5⟩
      · exact ⟨h1, h2, h3, h4, h5⟩
  | withPartTheme partName theme =>
      simp only [applyOption]
      split
      · split
        · refine ⟨h1, ?_, h3, h4, h5⟩
          intro n t ht
          rcases updMap_cases _ _ _ _ _ ht with h | h
          · exact h ▸ themeABC_wf _ (by assumption)
          · exact h2 n t h
        · exact ⟨h1, h2, h3, h4, h5⟩
      · exact ⟨h1, h2, h3, h4, h5⟩
  | withAllowedThemes partName themesList =>
      simp only [applyOption]
      split
      · split
        · refine ⟨h1, h2, ?_, h4, h5⟩
          intro n l hl
          rcases updMap_cases _ _ _ _ _ hl with h | h
          · subst h
            constructor
            · intro hnil
              simp_all
            · intro t ht
              exact themeABC_wf _ (List.of_mem_filter ht)
          · exact h3 n l h
        · exact ⟨h1, h2, h3, h4, h5⟩
      · exact ⟨h1, h2, h3, h4, h5⟩
  | withoutPart partName =>
      simp only [applyOption]
      split
      · exact ⟨h1, h2, h3, h4, h5⟩
      · exact ⟨h1, h2, h3, h4, h5⟩
  | withAllowedVersions partName versions =>
      simp only [applyOption]
      split
      · split
        · refine ⟨h1, h2, h3, h4, ?_⟩
          intro n l hl
          rcases updMap_cases _ _ _ _ _ hl with h | h
          · subst h
            constructor
            · intro hnil
              simp_all
            · intro v hv
              have := List.of_mem_filter hv
              simpa using this
          · exact h5 n l h
        · exact ⟨h1, h2, h3, h4, h5⟩
      · exact ⟨h1, h2, h3, h4, h5⟩
  | withGender gender =>
      simp only [applyOption]
      split
      · refine ⟨h1, ?_, ?_, h4, ?_⟩
        · intro n t ht
          rcases updMap_cases _ _ _ _ _ ht with h | h
          · simp [h, wfTheme, themeC]
          · rcases updMap_cases _ _ _ _ _ h with h' | h'
            · simp [h', wfTheme, themeC]
            · exact h2 n t h'
        · intro n l hl
          rcases updMap_cases _ _ _ _ _ hl with h | h
          · subst h; exact ⟨by decide, by decide⟩
          · exact h3 n l h
        · intro n l hl
          rcases updMap_cases _ _ _ _ _ hl with h | h
          · subst h; exact ⟨by decide, by decide⟩
          · rcases updMap_cases _ _ _ _ _ h with h' | h'
            · subst h'; exact ⟨by decide, by decide⟩
            · exact h5 n l h'
      · split
        · refine ⟨h1, ?_, ?_, h4, ?_⟩
          · intro n t ht
            rcases updMap_cases _ _ _ _ _ ht with h | h
            · simp [h, wfTheme, themeB]
            · rcases updMap_cases _ _ _ _ _ h with h' | h'
              · simp [h', wfTheme, themeB]
              · exact h2 n t h'
          · intro n l hl
            rcases updMap_cases _ _ _ _ _ hl with h | h
            · subst h; exact ⟨by decide, by decide⟩
            · exact h3 n l h
          · intro n l hl
            rcases updMap_cases _ _ _ _ _ hl with h | h
            · subst h; exact ⟨by decide, by decide⟩
            · rcases updMap_cases _ _ _ _ _ h with h' | h'
              · subst h'; exact ⟨by decide, by decide⟩
              · exact h5 n l h'
        · refine ⟨h1, h2, ?_, h4, ?_⟩
          · intro n l hl
            rcases updMap_cases _ _ _ _ _ hl with h | h
            · subst h; exact ⟨by decide, by decide⟩
            · exact h3 n l h
          · intro n l hl
            rcases updMap_cases _ _ _ _ _ hl with h | h
            · subst h; exact ⟨by decide, by decide⟩
            · rcases updMap_cases _ _ _ _ _ h with h' | h'
              · subst h'; exact ⟨by decide, by decide⟩
              · exact h5 n l h'
  | withoutBackground => exact ⟨h1, h2, h3, h4, h5⟩

theorem configWF_build (opts : List GenOption) : ConfigWF (buildConfig opts) := by
  unfold buildConfig
  induction opts using List.reverseRecOn with
  | nil => exact configWF_init
  | append_singleton xs x ih =>
      rw [List.foldl_append]
      exact configWF_apply _ _ ih

theorem defaultVT_theme_wf (val : Nat) : wfTheme (defaultVT val).2 := by
  unfold defaultVT
  dsimp only
  split_ifs <;> simp [wfTheme]

theorem defaultVT_ver_bounds : ∀ v ∈ List.range 100,
    (defaultVT v).1.length = 2 ∧ (defaultVT v).1 ∈ versionCodes00to15 := by decide

theorem getD_mem_of_lt {α : Type} (l : List α) (i : Nat) (d : α)
    (h : i < l.length) : l.getD i d ∈ l := by
  rw [List.getD_eq_getElem l d h]
  exact List.getElem_mem h

/-- C4 (amended). For every configuration built from options, the
resolved theme of every part is exactly one of `A`,`B`,`C`, and the
resolved version code has exactly 2 characters; when no version override
is configured for the part the resolved version is moreover in
`00`..`15`.  (Construction-time validation checks only part name,
2-character version length and `A`/`B`/`C` themes, so out-of-range
2-character version codes do reach resolution — see the
counterexample.) -/
theorem c4_resolution_invariants (opts : List GenOption) (name : List Char)
    (val : Nat) (hv : val ≤ 99) :
    wfTheme (resolveTheme (buildConfig opts) name val (defaultVT val).2) ∧
    (resolveVersion (buildConfig opts) name val (defaultVT val).1).length = 2 ∧
    ((buildConfig opts).forcePartV name = none →
      (buildConfig opts).allowedVersions name = none →
      resolveVersion (buildConfig opts) name val (defaultVT val).1 ∈
        versionCodes00to15) := by
  obtain ⟨h1, h2, h3, h4, h5⟩ := configWF_build opts
  have hd := defaultVT_ver_bounds val (List.mem_range.mpr (by omega))
  set cfg := buildConfig opts with hcfg
  refine ⟨?_, ?_, ?_⟩
  · rcases hpt : cfg.partTheme name with _ | pt
    · rcases hat : cfg.allowedThemes name with _ | l
      · rcases hst : cfg.selectedTheme with _ | t
        · simpa [resolveTheme, hpt, hat, hst] using defaultVT_theme_wf val
        · simpa [resolveTheme, hpt, hat, hst] using h1 t hst
      · obtain ⟨hne, hall⟩ := h3 name l hat
        have hlen : 0 < l.length := List.length_pos.mpr hne
        have hidx : val % l.length < l.length := Nat.mod_lt _ hlen
        rcases hst : cfg.selectedTheme with _ | t <;>
          · simp only [resolveTheme, hpt, hat, hst, if_pos hlen]
            exact hall _ (getD_mem_of_lt _ _ _ hidx)
    · simpa [resolveTheme, hpt] using h2 name pt hpt
  · rcases hf : cfg.forcePartV name with _ | f
    · rcases hav : cfg.allowedVersions name with _ | l
      · simpa [resolveVersion, hf, hav] using hd.1
      · obtain ⟨hne, hall⟩ := h5 name l hav
        have hlen : 0 < l.length := List.length_pos.mpr hne
        have hidx : val % l.length < l.length := Nat.mod_lt _ hlen
        simp only [resolveVersion, hf, hav, if_pos hlen]
        exact hall _ (getD_mem_of_lt _ _ _ hidx)
    · have hflen := h4 name f hf
      simp [resolveVersion, hf, hflen]
  · intro hfn havn
    simpa [resolveVersion, hfn, havn] using hd.2

/-- Counterexample to C4 as stated: `WithPartVersion("head", "99")` is
accepted at construction (only the length-2 check applies) and the part
resolves to version `"99"`, which is not a code in `00`..`15`. -/
theorem c4_counterexample :
    resolveVersion (buildConfig [.withPartVersion headN "99".toList]) headN 0
      (defaultVT 0).1 = "99".toList ∧
    "99".toList ∉ versionCodes00to15 := by decide

/-- Witness for C4 (amended) at a concrete configuration and value. -/
theorem c4_resolution_invariants_witness :
    wfTheme (resolveTheme (buildConfig [.withGender "f".toList]) topN 3
      (defaultVT 3).2) ∧
    (resolveVersion (buildConfig [.withGender "f".toList]) topN 3
      (defaultVT 3).1).length = 2 := by
  have h := c4_resolution_invariants [.withGender "f".toList] topN 3 (by omega)
  exact ⟨h.1, h.2.1⟩

/-! ## C7, C9: the replacement loop versus positional substitution

The lemma suite below characterizes `substituteColors` (the code's
first-occurrence replacement loop) against `substSegs` (positional
substitution): under the `provisoOK` side condition they agree; the
counterexamples show they differ without it. -/

theorem leads_iff (p s : List Char) : leads p s = true ↔ ∃ r, s = p ++ r := by
  induction p generalizing s with
  | nil => simp [leads]
  | cons a p ih =>
      cases s with
      | nil => simp [leads]
      | cons c cs =>
          simp only [leads, Bool.and_eq_true, decide_eq_true_eq, ih, List.cons_append,
            List.cons.injEq]
          constructor
          · rintro ⟨h1, r, h2⟩
            exact ⟨r, h1.symm, h2⟩
          · rintro ⟨r, h1, h2⟩
            exact ⟨h1.symm, r, h2⟩

theorem leads_self (p r : List Char) : leads p (p ++ r) = true :=
  (leads_iff p (p ++ r)).mpr ⟨r, rfl⟩

theorem hasSub_iff (t s : List Char) : hasSub t s = true ↔ ∃ x b, s = x ++ t ++ b := by
  induction s with
  | nil =>
      simp only [hasSub, leads_iff]
      constructor
      · rintro ⟨r, hr⟩
        exact ⟨[], r, by simpa using hr⟩
      · rintro ⟨x, b, hxb⟩
        have hx : x = [] := by
          cases x with
          | nil => rfl
          | cons _ _ => simp at hxb
        subst hx
        exact ⟨b, by simpa using hxb⟩
  | cons c cs ih =>
      simp only [hasSub, Bool.or_eq_true, leads_iff, ih]
      constructor
      · rintro (⟨r, hr⟩ | ⟨x, b, hxb⟩)
        · exact ⟨[], r, by simpa using hr⟩
        · exact ⟨c :: x, b, by simp [hxb]⟩
      · rintro ⟨x, b, hxb⟩
        cases x with
        | nil => exact Or.inl ⟨b, by simpa using hxb⟩
        | cons x0 xs =>
            simp only [List.cons_append, List.cons.injEq] at hxb
            exact Or.inr ⟨xs, b, hxb.2⟩

theorem append_split_len {α : Type} (a b c d : List α) (h : a ++ b = c ++ d)
    (hl : a.length ≤ c.length) : ∃ m, c = a ++ m ∧ b = m ++ d := by
  rcases List.append_eq_append_iff.mp h with ⟨m, hm1, hm2⟩ | ⟨m, hm1, hm2⟩
  · exact ⟨m, hm1, hm2⟩
  · have hlen := congrArg List.length hm1
    simp only [List.length_append] at hlen
    have hm0 : m = [] := List.length_eq_zero.mp (by omega)
    subst hm0
    refine ⟨[], by simpa using hm1.symm, ?_⟩
    simpa using hm2.symm

theorem grabTok_some (cs h r : List Char) (hg : grabTok cs = some (h, r)) :
    cs = h ++ ';' :: r ∧ h.all cleanChar = true := by
  induction cs generalizing h r with
  | nil => simp [grabTok] at hg
  | cons c cs ih =>
      unfold grabTok at hg
      split_ifs at hg with h1 h2
      · simp only [Option.some_inj, Prod.mk.injEq] at hg
        obtain ⟨rfl, rfl⟩ := hg
        subst h1
        exact ⟨rfl, rfl⟩
      · rcases hrec : grabTok cs with _ | ⟨h', r'⟩
        · rw [hrec] at hg; simp at hg
        · rw [hrec] at hg
          simp only [Option.some_inj, Prod.mk.injEq] at hg
          obtain ⟨rfl, rfl⟩ := hg
          obtain ⟨hcs, hall⟩ := ih h' r' hrec
          subst hcs
          refine ⟨rfl, ?_⟩
          simp only [List.all_cons, Bool.and_eq_true]
          exact ⟨by simp [cleanChar, h1, h2], hall⟩

theorem grabTok_clean_semi (h r : List Char) (hall : h.all cleanChar = true) :
    grabTok (h ++ ';' :: r) = some (h, r) := by
  induction h with
  | nil => simp [grabTok]
  | cons a h ih =>
      simp only [List.all_cons, Bool.and_eq_true] at hall
      have ha := hall.1
      simp only [cleanChar, Bool.and_eq_true, bne_iff_ne, ne_eq] at ha
      simp only [List.cons_append, grabTok, List.append_eq]
      rw [if_neg (by simpa using ha.1), if_neg (by simpa using ha.2), ih hall.2]

theorem nextTok_none (l : List Char) (hn : nextTok l = none) :
    ∀ x y, l = x ++ '#' :: y → grabTok y = none := by
  induction l with
  | nil => intro x y hxy; simp at hxy
  | cons c cs ih =>
      intro x y hxy
      unfold nextTok at hn
      split_ifs at hn with h1
      · rcases hg : grabTok cs with _ | p
        · rw [hg] at hn
          rcases hn2 : nextTok cs with _ | q
          · cases x with
            | nil =>
                simp only [List.nil_append, List.cons.injEq] at hxy
                exact hxy.2 ▸ hg
            | cons x0 xs =>
                simp only [List.cons_append, List.cons.injEq] at hxy
                exact ih hn2 xs y hxy.2
          · rw [hn2] at hn; simp at hn
        · rw [hg] at hn; simp at hn
      · rcases hn2 : nextTok cs with _ | q
        · cases x with
          | nil =>
              simp only [List.nil_append, List.cons.injEq] at hxy
              exact absurd hxy.1 h1
          | cons x0 xs =>
              simp only [List.cons_append, List.cons.injEq] at hxy
              exact ih hn2 xs y hxy.2
        · rw [hn2] at hn; simp at hn

theorem nextTok_some (l g t r : List Char)
    (hn : nextTok l = some (g, t, r)) :
    l = g ++ t ++ r ∧
    (∃ h, t = '#' :: (h ++ [';']) ∧ h.all cleanChar = true) ∧
    (∀ x y, g = x ++ '#' :: y → grabTok (y ++ t ++ r) = none) := by
  induction l generalizing g t r with
  | nil => simp [nextTok] at hn
  | cons c cs ih =>
      unfold nextTok at hn
      split_ifs at hn with h1
      · rcases hg : grabTok cs with _ | ⟨h0, r0⟩
        · rw [hg] at hn
          rcases hn2 : nextTok cs with _ | ⟨g', t', r'⟩
          · rw [hn2] at hn; simp at hn
          · rw [hn2] at hn
            simp only [Option.some_inj, Prod.mk.injEq] at hn
            obtain ⟨rfl, rfl, rfl⟩ := hn
            obtain ⟨hrec, hshape, hgap⟩ := ih g' t' r' hn2
            refine ⟨by simp [hrec], hshape, ?_⟩
            intro x y hxy
            cases x with
            | nil =>
                simp only [List.nil_append, List.cons.injEq] at hxy
                obtain ⟨-, rfl⟩ := hxy
                rw [← hrec]
                exact hg
            | cons x0 xs =>
                simp only [List.cons_append, List.cons.injEq] at hxy
                exact hgap xs y hxy.2
        · rw [hg] at hn
          simp only [Option.some_inj, Prod.mk.injEq] at hn
          obtain ⟨rfl, rfl, rfl⟩ := hn
          obtain ⟨hcs, hall⟩ := grabTok_some cs h0 r0 hg
          subst hcs
          refine ⟨by simp [h1], ⟨h0, rfl, hall⟩, ?_⟩
          intro x y hxy
          simp at hxy
      · rcases hn2 : nextTok cs with _ | ⟨g', t', r'⟩
        · rw [hn2] at hn; simp at hn
        · rw [hn2] at hn
          simp only [Option.some_inj, Prod.mk.injEq] at hn
          obtain ⟨rfl, rfl, rfl⟩ := hn
          obtain ⟨hrec, hshape, hgap⟩ := ih g' t' r' hn2
          refine ⟨by simp [hrec], hshape, ?_⟩
          intro x y hxy
          cases x with
          | nil =>
              simp only [List.nil_append, List.cons.injEq] at hxy
              exact absurd hxy.1 h1
          | cons x0 xs =>
              simp only [List.cons_append, List.cons.injEq] at hxy
              exact hgap xs y hxy.2

theorem nextTok_some_length (l g t r : List Char)
    (hn : nextTok l = some (g, t, r)) : r.length < l.length := by
  obtain ⟨hrec, ⟨h, hsh, -⟩, -⟩ := nextTok_some l g t r hn
  subst hsh
  rw [hrec]
  simp
  omega

theorem scanTF_join (fuel : Nat) (l : List Char) :
    joinSegs (scanTF fuel l).1 (scanTF fuel l).2 = l := by
  induction fuel generalizing l with
  | zero => rfl
  | succ fuel ih =>
      unfold scanTF
      rcases hn : nextTok l with _ | ⟨g, t, r⟩
      · rfl
      · obtain ⟨hrec, -, -⟩ := nextTok_some l g t r hn
        dsimp only
        simp only [joinSegs]
        rw [ih r]
        simp [hrec]

theorem scanTF_wf (fuel : Nat) (l : List Char) (hfuel : l.length ≤ fuel) :
    segsWF (scanTF fuel l).1 (scanTF fuel l).2 := by
  induction fuel generalizing l with
  | zero =>
      have : l = [] := List.length_eq_zero.mp (by omega)
      subst this
      intro x y hxy
      have hlen := congrArg List.length hxy
      simp [scanTF] at hlen
      omega
  | succ fuel ih =>
      unfold scanTF
      rcases hn : nextTok l with _ | ⟨g, t, r⟩
      · exact nextTok_none l hn
      · obtain ⟨hrec, hshape, hgap⟩ := nextTok_some l g t r hn
        have hlr : r.length < l.length := nextTok_some_length l g t r hn
        dsimp only
        refine ⟨hshape, ?_, ih r (by omega)⟩
        intro x y hxy
        rw [scanTF_join fuel r]
        exact hgap x y hxy

theorem tok_semi_last (tok u w : List Char) (htok : tokShape tok)
    (heq : tok = u ++ ';' :: w) : w = [] := by
  obtain ⟨h, hsh, hall⟩ := htok
  subst hsh
  cases u with
  | nil => simp at heq
  | cons u0 us =>
      simp only [List.cons_append, List.cons.injEq] at heq
      obtain ⟨-, heq2⟩ := heq
      by_cases hlen : us.length ≤ h.length
      · obtain ⟨m, hm1, hm2⟩ :=
          append_split_len us (';' :: w) h [';'] heq2.symm hlen
        cases m with
        | nil => simpa using hm2
        | cons m0 ms =>
            simp only [List.cons_append, List.cons.injEq] at hm2
            have hm0 : m0 ∈ h := by
              rw [hm1]
              exact List.mem_append_right _ (List.mem_cons_self _ _)
            have hcl := (List.all_eq_true.mp hall) m0 hm0
            rw [← hm2.1] at hcl
            simp [cleanChar] at hcl
      · obtain ⟨m, hm1, hm2⟩ :=
          append_split_len h [';'] us (';' :: w) heq2 (by omega)
        have hl2 := congrArg List.length hm2
        simp at hl2
        exact List.length_eq_zero.mp (by omega)

theorem clean_grabTok_some (y h2 rest : List Char) (hy : y.all cleanChar = true)
    (hh : h2.all cleanChar = true) :
    grabTok (y ++ ('#' :: (h2 ++ [';'])) ++ rest) ≠ none := by
  have hclean : (y ++ '#' :: h2).all cleanChar = true := by
    simp only [List.all_append, List.all_cons, Bool.and_eq_true]
    exact ⟨hy, by simp [cleanChar], hh⟩
  have : y ++ ('#' :: (h2 ++ [';'])) ++ rest = (y ++ '#' :: h2) ++ ';' :: rest := by
    simp
  rw [this, grabTok_clean_semi _ _ hclean]
  simp

theorem gap_no_tok (g t rest tok follow x b : List Char) (htok : tokShape tok)
    (hshape : tokShape t)
    (hgap : ∀ x2 y, g = x2 ++ '#' :: y → grabTok (y ++ t ++ rest) = none)
    (hx : x.length < g.length)
    (heq : g ++ follow = x ++ tok ++ b) : False := by
  obtain ⟨h, hsh, hall⟩ := htok
  obtain ⟨h2, hsh2, hall2⟩ := hshape
  have heq' : x ++ (tok ++ b) = g ++ follow := by
    rw [← List.append_assoc]
    exact heq.symm
  obtain ⟨m, hm1, hm2⟩ := append_split_len x (tok ++ b) g follow heq' (le_of_lt hx)
  have hmlen : 0 < m.length := by
    have := congrArg List.length hm1
    simp at this
    omega
  cases m with
  | nil => simp at hmlen
  | cons m0 m' =>
      subst hsh
      simp only [List.cons_append, List.cons.injEq] at hm2
      obtain ⟨hm0, htail⟩ := hm2
      subst hm0
      have hgnone := hgap x m' hm1
      rw [hsh2] at hgnone
      by_cases hlen2 : m'.length ≤ h.length
      · have htail' : m' ++ follow = h ++ ([';'] ++ b) := by
          rw [← htail]
          simp
        obtain ⟨m2, hm21, hm22⟩ :=
          append_split_len m' follow h ([';'] ++ b) htail' hlen2
        have hclean : m'.all cleanChar = true := by
          rw [hm21] at hall
          simp only [List.all_append, Bool.and_eq_true] at hall
          exact hall.1
        exact clean_grabTok_some m' h2 rest hclean hall2 hgnone
      · have htail' : h ++ ([';'] ++ b) = m' ++ follow := by
          rw [← htail]
          simp
        obtain ⟨m2, hm21, hm22⟩ :=
          append_split_len h ([';'] ++ b) m' follow htail' (by omega)
        cases m2 with
        | nil =>
            have hclean : m'.all cleanChar = true := by
              rw [hm21]
              simpa using hall
            exact clean_grabTok_some m' h2 rest hclean hall2 hgnone
        | cons n0 n' =>
            simp only [List.cons_append] at hm22
            have hn0 : n0 = ';' := by
              have := hm22.symm
              simp only [List.cons.injEq] at this
              exact this.1
            subst hn0
            rw [hm21] at hgnone
            simp only [List.append_assoc, List.cons_append] at hgnone
            rw [grabTok_clean_semi _ _ hall] at hgnone
            simp at hgnone

theorem color_no_spill (cv follow tok x b : List Char) (htok : tokShape tok)
    (hnotin : hasSub tok (cv ++ [';']) = false)
    (hx : x.length < (cv ++ [';']).length)
    (heq : (cv ++ [';']) ++ follow = x ++ tok ++ b) : False := by
  have hx' : x.length < cv.length + 1 := by simpa using hx
  have heq' : x ++ (tok ++ b) = (cv ++ [';']) ++ follow := by
    rw [← List.append_assoc]
    exact heq.symm
  obtain ⟨m, hm1, hm2⟩ :=
    append_split_len x (tok ++ b) (cv ++ [';']) follow heq' (le_of_lt hx)
  by_cases hlen : tok.length ≤ m.length
  · obtain ⟨m2, hm21, hm22⟩ := append_split_len tok b m follow hm2 hlen
    have hsub : hasSub tok (cv ++ [';']) = true := by
      rw [hasSub_iff]
      exact ⟨x, m2, by rw [hm1, hm21]; simp⟩
    rw [hsub] at hnotin
    simp at hnotin
  · obtain ⟨m2, hm21, hm22⟩ :=
      append_split_len m follow tok b hm2.symm (by omega)
    have hm2ne : m2 ≠ [] := by
      intro hnil
      rw [hnil] at hm21
      have hl := congrArg List.length hm21
      simp at hl
      omega
    have hmne : m ≠ [] := by
      intro hnil
      subst hnil
      have hl := congrArg List.length hm1
      simp at hl
      omega
    have hxle : x.length ≤ cv.length := by omega
    obtain ⟨u, hu1, hu2⟩ := append_split_len x m cv [';'] hm1.symm hxle
    have hune : m = u ++ [';'] := hu2
    have htoksplit : tok = u ++ ';' :: m2 := by
      rw [hm21, hune]
      simp
    exact hm2ne (tok_semi_last tok u m2 htok htoksplit)

theorem replaceFirst_at (B m S c2 : List Char)
    (hno : ∀ x b, B ++ (m ++ S) = x ++ (m ++ b) → B.length ≤ x.length) :
    replaceFirst (B ++ m ++ S) m c2 = B ++ c2 ++ S := by
  induction B with
  | nil =>
      simp only [List.nil_append]
      cases m with
      | nil =>
          cases S with
          | nil => simp [replaceFirst]
          | cons s ss => simp [replaceFirst, leads]
      | cons m0 ms =>
          have hld : leads (m0 :: ms) ((m0 :: ms) ++ S) = true := leads_self _ _
          rw [show (m0 :: ms) ++ S = m0 :: (ms ++ S) from rfl]
          unfold replaceFirst
          rw [show m0 :: (ms ++ S) = (m0 :: ms) ++ S from rfl, if_pos hld]
          congr 1
          rw [List.drop_left]
  | cons b0 B' ih =>
      have hlf : leads m (b0 :: (B' ++ m ++ S)) = false := by
        by_contra hcon
        rw [Bool.not_eq_false, leads_iff] at hcon
        obtain ⟨r, hr⟩ := hcon
        have := hno [] r (by simpa using hr)
        simp at this
      rw [show (b0 :: B') ++ m ++ S = b0 :: (B' ++ m ++ S) from rfl]
      unfold replaceFirst
      rw [if_neg (by rw [hlf]; simp)]
      rw [show (b0 :: B') ++ c2 ++ S = b0 :: (B' ++ c2 ++ S) from rfl]
      congr 1
      apply ih
      intro x b hxb
      have := hno (b0 :: x) b (by rw [show (b0 :: B') ++ (m ++ S) = b0 :: (B' ++ (m ++ S)) from rfl, hxb]; rfl)
      simpa using this

theorem substSegs_nil_colors (segs : List (List Char × List Char)) (tail : List Char) :
    substSegs segs [] tail = joinSegs segs tail := by
  induction segs with
  | nil => rfl
  | cons gt segs ih =>
      obtain ⟨g, t⟩ := gt
      simp only [substSegs, joinSegs, ih]

theorem renderFold_eq (segs : List (List Char × List Char)) (tail : List Char)
    (cs : List (List Char)) (A : List Char)
    (hwf : segsWF segs tail)
    (hpro : provisoOK segs cs = true)
    (hA : ∀ tok, tokShape tok → tokIn tok segs → noStartIn tok A) :
    List.foldl (fun r mc => replaceFirst r mc.1 (mc.2 ++ [';']))
      (A ++ joinSegs segs tail) ((segs.map Prod.snd).zip cs)
    = A ++ substSegs segs cs tail := by
  induction segs generalizing cs A with
  | nil => cases cs <;> simp [joinSegs, substSegs]
  | cons gt segs ih =>
      obtain ⟨g, m⟩ := gt
      obtain ⟨hshape, hgap, hwf2⟩ := hwf
      cases cs with
      | nil =>
          simp only [List.zip_nil_right, List.foldl_nil]
          rw [substSegs_nil_colors]
      | cons c cs2 =>
          have hpros := hpro
          unfold provisoOK at hpros
          rw [Bool.and_eq_true] at hpros
          obtain ⟨hall0, hpro2⟩ := hpros
          have hpro1 : ∀ tok, tokIn tok segs → hasSub tok (c ++ [';']) = false := by
            intro tok htk
            obtain ⟨gm, hgm, hgm2⟩ := List.mem_map.mp htk
            have := (List.all_eq_true.mp hall0) gm hgm
            rw [hgm2] at this
            simpa using this
          set S := joinSegs segs tail with hS
          have hstep : replaceFirst (A ++ joinSegs ((g, m) :: segs) tail) m (c ++ [';'])
              = (A ++ g) ++ (c ++ [';']) ++ S := by
            have hrw : A ++ joinSegs ((g, m) :: segs) tail = (A ++ g) ++ m ++ S := by
              simp [joinSegs, hS]
            rw [hrw]
            apply replaceFirst_at
            intro x b hxb
            by_contra hcon
            push_neg at hcon
            by_cases hxa : x.length < A.length
            · have hAm := hA m hshape (by simp [tokIn]) (g ++ (m ++ S)) x b
              have h2 : A ++ (g ++ (m ++ S)) = x ++ m ++ b := by
                simpa using hxb
              have := hAm h2
              omega
            · have hxa2 : A.length ≤ x.length := by omega
              have heqn : A ++ (g ++ (m ++ S)) = x ++ (m ++ b) := by
                simpa using hxb
              obtain ⟨x2, hx21, hx22⟩ :=
                append_split_len A (g ++ (m ++ S)) x (m ++ b) heqn hxa2
              have hx2len : x2.length < g.length := by
                have hlx := congrArg List.length hx21
                simp at hlx
                simp [List.length_append] at hcon
                omega
              exact gap_no_tok g m S m (m ++ S) x2 b hshape hshape hgap hx2len
                (by rw [hx22]; simp)
          have hA2 : ∀ tok, tokShape tok → tokIn tok segs →
              noStartIn tok (A ++ g ++ (c ++ [';'])) := by
            intro tok htsh htin suffix x b hxb
            by_contra hcon
            push_neg at hcon
            simp only [List.length_append] at hcon
            by_cases hxa : x.length < A.length
            · have hAm := hA tok htsh
                (by simp only [tokIn, List.map_cons, List.mem_cons]; right; exact htin)
                (g ++ ((c ++ [';']) ++ suffix)) x b
              have h2 : A ++ (g ++ ((c ++ [';']) ++ suffix)) = x ++ tok ++ b := by
                simpa using hxb
              have := hAm h2
              omega
            · by_cases hxg : x.length < A.length + g.length
              · have heqn : A ++ (g ++ ((c ++ [';']) ++ suffix)) = x ++ (tok ++ b) := by
                  simpa using hxb
                obtain ⟨x2, hx21, hx22⟩ :=
                  append_split_len A (g ++ ((c ++ [';']) ++ suffix)) x (tok ++ b)
                    heqn (by omega)
                have hx2len : x2.length < g.length := by
                  have hlx := congrArg List.length hx21
                  simp at hlx
                  omega
                exact gap_no_tok g m S tok ((c ++ [';']) ++ suffix) x2 b htsh hshape
                  hgap hx2len (by rw [hx22]; simp)
              · have heqn : (A ++ g) ++ ((c ++ [';']) ++ suffix) = x ++ (tok ++ b) := by
                  simpa using hxb
                obtain ⟨x3, hx31, hx32⟩ :=
                  append_split_len (A ++ g) ((c ++ [';']) ++ suffix) x (tok ++ b)
                    heqn (by simp [List.length_append]; omega)
                have hx3len : x3.length < (c ++ [';']).length := by
                  have hlx := congrArg List.length hx31
                  simp at hlx
                  simp [List.length_append] at hcon ⊢
                  omega
                exact color_no_spill c suffix tok x3 b htsh (hpro1 tok htin) hx3len
                  (by rw [hx32]; simp)
          have hzip : (List.map Prod.snd ((g, m) :: segs)).zip (c :: cs2)
              = (m, c) :: (List.map Prod.snd segs).zip cs2 := by
            simp
          rw [hzip, List.foldl_cons]
          dsimp only
          rw [hstep]
          have harr : A ++ g ++ (c ++ [';']) ++ S = (A ++ g ++ (c ++ [';'])) ++ S := by
            simp
          rw [harr, ih cs2 (A ++ g ++ (c ++ [';'])) hwf2 hpro2 hA2]
          simp [substSegs]

theorem render_positional (t : List Char) (cs : List (List Char))
    (hpro : provisoOK (scanT t).1 cs = true) :
    substituteColors t cs = substSegs (scanT t).1 cs (scanT t).2 := by
  have hwf := scanTF_wf t.length t le_rfl
  have hj := scanTF_join t.length t
  have hmain := renderFold_eq (scanT t).1 (scanT t).2 cs [] hwf hpro
    (by intro tok _ _ suffix x b _; simp)
  rw [show ([] : List Char) ++ joinSegs (scanT t).1 (scanT t).2
      = joinSegs (scanT t).1 (scanT t).2 from rfl] at hmain
  unfold scanT at hmain hj ⊢
  rw [hj] at hmain
  simpa [substituteColors, tokensOf, scanT] using hmain

theorem segsWF_shapes (segs : List (List Char × List Char)) (tail : List Char)
    (hwf : segsWF segs tail) :
    ∀ tok, tokIn tok segs → tokShape tok := by
  induction segs with
  | nil => intro tok htk; simp [tokIn] at htk
  | cons gt segs ih =>
      obtain ⟨g, t⟩ := gt
      obtain ⟨hshape, -, hwf2⟩ := hwf
      intro tok htk
      simp only [tokIn, List.map_cons, List.mem_cons] at htk
      rcases htk with rfl | htk
      · exact hshape
      · exact ih hwf2 tok htk

theorem substSegs_keeps (segs : List (List Char × List Char))
    (cs : List (List Char)) (tail : List Char) (tok : List Char) :
    tok ∈ (segs.map Prod.snd).drop cs.length →
    ∃ x b, substSegs segs cs tail = x ++ tok ++ b := by
  induction segs generalizing cs tail with
  | nil => intro htk; simp at htk
  | cons gt segs ih =>
      obtain ⟨g, t⟩ := gt
      intro htk
      cases cs with
      | nil =>
          simp only [List.map_cons, List.length_nil, List.drop_zero, List.mem_cons] at htk
          rcases htk with rfl | htk
          · exact ⟨g, substSegs segs [] tail, by simp [substSegs]⟩
          · obtain ⟨x, b, hxb⟩ := ih [] tail htk
            exact ⟨g ++ t ++ x, b, by simp [substSegs, hxb]⟩

      | cons c cs2 =>
          simp only [List.map_cons, List.length_cons, List.drop_succ_cons] at htk
          obtain ⟨x, b, hxb⟩ := ih cs2 tail htk
          exact ⟨g ++ (c ++ [';']) ++ x, b, by simp [substSegs, hxb]⟩

/-- C7 (amended). When the resolved color list is shorter than the
template's placeholder count — provided no substituted replacement text
`colors[j] + ";"` contains a later-substituted match's text as a
substring (`provisoOK`; without it the loop can misplace a replacement,
see the counterexample) — the loop substitutes exactly the first
`len(colors)` matches in left-to-right scan order and the result is the
positional substitution, with every remaining match still literally
present in its `#...;` token shape. -/
theorem c7_short_colors (t : List Char) (cs : List (List Char))
    (hshort : cs.length < (tokensOf t).length)
    (hpro : provisoOK (scanT t).1 cs = true) :
    substituteColors t cs = substSegs (scanT t).1 cs (scanT t).2 ∧
    ∀ tok ∈ (tokensOf t).drop cs.length,
      (∃ x b, substituteColors t cs = x ++ tok ++ b) ∧ tokShape tok := by
  have hmain := render_positional t cs hpro
  refine ⟨hmain, ?_⟩
  intro tok htk
  have hwf := scanTF_wf t.length t le_rfl
  constructor
  · rw [hmain]
    exact substSegs_keeps (scanT t).1 cs (scanT t).2 tok htk
  · exact segsWF_shapes (scanT t).1 (scanT t).2 hwf tok
      (List.mem_of_mem_drop htk)

/-- Counterexample to C7 as stated: with template `#a;#b;#c;` and the
shorter override color list `[x#b, z]` the second replacement hits the
text `#b;` that the first substituted color introduced, not the second
match: the result is `xz;#b;#c;`, so the first two matches are *not*
the ones replaced (positional substitution would give `x#b;z;#c;`). -/
theorem c7_counterexample :
    (["x#b".toList, "z".toList].length < (tokensOf "#a;#b;#c;".toList).length) ∧
    substituteColors "#a;#b;#c;".toList ["x#b".toList, "z".toList]
      = "xz;#b;#c;".toList ∧
    substituteColors "#a;#b;#c;".toList ["x#b".toList, "z".toList] ≠
      substSegs (scanT "#a;#b;#c;".toList).1 ["x#b".toList, "z".toList]
        (scanT "#a;#b;#c;".toList).2 := by decide

/-- Witness for C7 (amended) at a concrete template and color list. -/
theorem c7_short_colors_witness :
    substituteColors "#a;#b;#c;".toList ["u".toList, "v".toList]
      = substSegs (scanT "#a;#b;#c;".toList).1 ["u".toList, "v".toList]
        (scanT "#a;#b;#c;".toList).2 :=
  (c7_short_colors "#a;#b;#c;".toList ["u".toList, "v".toList]
    (by decide) (by decide)).1

/-- C9 (amended). When a template contains identical placeholder
token text at more than one position and enough colors are resolved,
the occurrences are replaced positionally — the `i`-th match in
left-to-right scan order receives the `i`-th color — provided no
substituted replacement text `colors[j] + ";"` contains any later
match's text as a substring.  (The original proviso, that no substituted
color value *equals* a later placeholder token's text, is not
sufficient: a color merely containing the token text also misdirects
the first-occurrence replace; see the counterexample.) -/
theorem c9_positional_replacement (t : List Char) (cs : List (List Char))
    (hdup : ¬ (tokensOf t).Nodup)
    (henough : (tokensOf t).length ≤ cs.length)
    (hpro : provisoOK (scanT t).1 cs = true) :
    substituteColors t cs = substSegs (scanT t).1 cs (scanT t).2 :=
  render_positional t cs hpro

/-- Counterexample to C9 as stated: template `#a;#a;` with colors
`[x#a, z]` satisfies the claim's proviso (neither color value equals a
later token's text `#a;`, even with `;` appended), yet the second
replacement hits the `#a;` inside the first substituted color: the
result is `xz;#a;` while positional substitution gives `x#a;z;`. -/
theorem c9_counterexample :
    ((tokensOf "#a;#a;".toList).length ≤
      (["x#a".toList, "z".toList] : List (List Char)).length) ∧
    (¬ (tokensOf "#a;#a;".toList).Nodup) ∧
    (∀ c ∈ (["x#a".toList, "z".toList] : List (List Char)),
      ∀ tok ∈ tokensOf "#a;#a;".toList, c ≠ tok ∧ c ++ [';'] ≠ tok) ∧
    substituteColors "#a;#a;".toList ["x#a".toList, "z".toList]
      = "xz;#a;".toList ∧
    substituteColors "#a;#a;".toList ["x#a".toList, "z".toList] ≠
      substSegs (scanT "#a;#a;".toList).1 ["x#a".toList, "z".toList]
        (scanT "#a;#a;".toList).2 := by decide

/-- Witness for C9 (amended) at a duplicate-token template. -/
theorem c9_positional_replacement_witness :
    substituteColors "#a;#a;".toList ["u".toList, "v".toList]
      = substSegs (scanT "#a;#a;".toList).1 ["u".toList, "v".toList]
        (scanT "#a;#a;".toList).2 :=
  c9_positional_replacement "#a;#a;".toList ["u".toList, "v".toList]
    (by decide) (by decide) (by decide)

end Multiavatar
